import Mathlib

/-!
# Verification of the `create_structure` scaffolding script

This file gives a shallow embedding of `src/create_structure.py` and proves
the behavioural properties stated in the specification.

The script iterates over a hardcoded list of relative path strings and, for
each path `P`:

1. `os.makedirs(os.path.dirname(P), exist_ok=True)` — recursively creates
   the parent directory chain;
2. `open(P, 'a')` followed by an immediate close — touches a file at `P`
   (creating an empty file when absent, leaving existing content alone);
3. `print(f"Created: {P}")` — emits one confirmation line.

The filesystem is modelled as an association list from paths (lists of
segment strings, relative to the working directory) to nodes (directories,
or regular files carrying their content).  Errors mirror the Python
exceptions that the underlying system calls can raise.  `os.makedirs` is
modelled after CPython's recursive implementation, including the
`exist_ok` handling and the swallowed `FileExistsError` from the recursive
call; `os.path.dirname` is modelled after `posixpath.dirname` at the level
of character lists.
-/

namespace CreateStructure

/-- A node in the modelled filesystem: a directory, or a regular file
carrying its byte content (modelled as a string). -/
inductive Node where
  | dir : Node
  | file : String → Node
deriving DecidableEq

/-- Errors mirroring the Python exceptions raised by the filesystem calls
used in the script. -/
inductive OSErr where
  | fileNotFound : OSErr
  | fileExists : OSErr
  | notADirectory : OSErr
  | isADirectory : OSErr
deriving DecidableEq

/-- A path relative to the working directory, as a list of segments.
The empty list stands for the working directory itself (resp. for the
empty string when passed as an operand, which the system calls reject). -/
abbrev Path := List String

/-- Association-list lookup with decidable key equality. -/
def lookupEntries : List (Path × Node) → Path → Option Node
  | [], _ => none
  | e :: rest, p => if e.1 = p then some e.2 else lookupEntries rest p

/-- The modelled filesystem state: a finite map from paths to nodes,
represented as an association list (most recent entry first). -/
structure FS where
  entries : List (Path × Node)
deriving DecidableEq

/-- Look a path up in the filesystem. -/
def FS.lookup (fs : FS) (p : Path) : Option Node := lookupEntries fs.entries p

/-- Add an entry to the filesystem (used only for paths not yet present). -/
def FS.insert (fs : FS) (p : Path) (n : Node) : FS := ⟨(p, n) :: fs.entries⟩

/-- `os.path.exists`: the working directory always exists; any other path
exists when it has an entry. -/
def FS.existsAt (fs : FS) (p : Path) : Bool := p.isEmpty || (fs.lookup p).isSome

/-- `os.path.isdir`: the working directory is a directory; any other path
is a directory when its entry is a directory node. -/
def FS.isDirAt (fs : FS) (p : Path) : Bool :=
  p.isEmpty || decide (fs.lookup p = some Node.dir)

/-- Resolve the directory chain `rest`, starting below the directory `acc`:
the walk the kernel performs on every path operand.  A missing component
raises `FileNotFoundError`; a component that is a regular file raises
`NotADirectoryError`. -/
def FS.resolveSegs (fs : FS) (acc : Path) : Path → Except OSErr Unit
  | [] => .ok ()
  | s :: rest =>
    match fs.lookup (acc ++ [s]) with
    | none => .error .fileNotFound
    | some (.file _) => .error .notADirectory
    | some .dir => FS.resolveSegs fs (acc ++ [s]) rest

/-- Resolve a path and require every component of it to be an existing
directory. -/
def FS.resolveDir (fs : FS) (p : Path) : Except OSErr Unit := FS.resolveSegs fs [] p

/-- `os.mkdir`: rejects the empty path (`FileNotFoundError`), resolves the
parent chain, raises `FileExistsError` when the target already exists, and
otherwise records a new directory. -/
def FS.mkdir (fs : FS) (p : Path) : Except OSErr FS :=
  match p with
  | [] => .error .fileNotFound
  | _ :: _ =>
    match FS.resolveDir fs p.dropLast with
    | .error e => .error e
    | .ok _ =>
      match fs.lookup p with
      | some _ => .error .fileExists
      | none => .ok (fs.insert p .dir)

/-- The `try: mkdir(name) except OSError: ...` tail of CPython's
`os.makedirs`: an error is swallowed exactly when `exist_ok` is set and the
target is already a directory. -/
def FS.mkdirTry (fs : FS) (p : Path) (exist_ok : Bool) : Except OSErr FS :=
  match FS.mkdir fs p with
  | .ok fs1 => .ok fs1
  | .error e => if exist_ok = true ∧ FS.isDirAt fs p = true then .ok fs else .error e

/-- What CPython's `os.makedirs` does after its recursive call on the
parent chain, as a function of that call's outcome: a `FileExistsError`
escaping the recursion is swallowed (`except FileExistsError: pass`, so
the pre-recursion filesystem is kept), any other error propagates; then a
final segment `"."` returns early, and otherwise `mkdir` runs under the
`exist_ok` `try`/`except`. -/
def FS.makedirsCont (fs : FS) (tail : String) (rhead : List String) (exist_ok : Bool) :
    Except OSErr FS → Except OSErr FS
  | .error e =>
    if e = .fileExists then
      if tail = "." then .ok fs
      else FS.mkdirTry fs ((tail :: rhead).reverse) exist_ok
    else .error e
  | .ok fs1 =>
    if tail = "." then .ok fs1
    else FS.mkdirTry fs1 ((tail :: rhead).reverse) exist_ok

/-- CPython's recursive `os.makedirs`, on the reversed segment list (the
recursion peels the last segment, so reversing makes it structural).
`tail` is the final segment and `rhead` the reversed parent chain.  The
guard mirrors `if head and tail and not path.exists(head)`; when it holds
the parent chain is built recursively and `FS.makedirsCont` finishes the
job, otherwise `mkdir` runs directly under the `exist_ok` `try`/`except`. -/
def FS.makedirsRev (fs : FS) (exist_ok : Bool) : List String → Except OSErr FS
  | [] => .error .fileNotFound
  | tail :: rhead =>
    if rhead ≠ [] ∧ tail ≠ "" ∧ FS.existsAt fs rhead.reverse = false then
      FS.makedirsCont fs tail rhead exist_ok (FS.makedirsRev fs exist_ok rhead)
    else
      FS.mkdirTry fs ((tail :: rhead).reverse) exist_ok

/-- `os.makedirs(p, exist_ok)` on a segment-list path. -/
def FS.makedirs (fs : FS) (p : Path) (exist_ok : Bool) : Except OSErr FS :=
  FS.makedirsRev fs exist_ok p.reverse

/-- `open(p, 'a')` immediately closed, with no write performed: rejects the
empty path, resolves the parent chain, leaves an existing regular file
completely untouched (append mode never truncates), raises
`IsADirectoryError` on a directory, and otherwise creates an empty file. -/
def FS.openAppend (fs : FS) (p : Path) : Except OSErr FS :=
  match p with
  | [] => .error .fileNotFound
  | _ :: _ =>
    match FS.resolveDir fs p.dropLast with
    | .error e => .error e
    | .ok _ =>
      match fs.lookup p with
      | some (.file _) => .ok fs
      | some .dir => .error .isADirectory
      | none => .ok (fs.insert p (.file ""))

/-- Split a character list at every occurrence of `sep`
(the semantics of Python's `str.split(sep)`). -/
def splitChars (sep : Char) : List Char → List (List Char)
  | [] => [[]]
  | c :: rest =>
    if c = sep then [] :: splitChars sep rest
    else
      match splitChars sep rest with
      | [] => [[c]]
      | h :: t => (c :: h) :: t

/-- The segment list denoted by a path string: the empty string denotes the
empty segment list, any other string is split at `'/'`. -/
def strSegs (s : String) : List String :=
  if s = "" then [] else (splitChars '/' s.toList).map String.mk

/-- `posixpath.dirname` on character lists: everything up to the last
`'/'` (computed here by dropping, from the reversed character list, the
trailing run without a slash), with trailing slashes stripped unless the
result consists only of slashes. -/
def dirnameChars (l : List Char) : List Char :=
  if (l.reverse.dropWhile (fun c => decide (c ≠ '/'))).all (fun c => decide (c = '/')) then
    (l.reverse.dropWhile (fun c => decide (c ≠ '/'))).reverse
  else
    ((l.reverse.dropWhile (fun c => decide (c ≠ '/'))).dropWhile
      (fun c => decide (c = '/'))).reverse

/-- `os.path.dirname` on strings. -/
def dirname (s : String) : String := String.mk (dirnameChars s.toList)

/-- A well-formed path segment: nonempty and none of the special names
`"."` and `".."` (for which the straight-line filesystem model would not
be faithful to real path resolution). -/
def validSeg (s : String) : Bool := decide (s ≠ "" ∧ s ≠ "." ∧ s ≠ "..")

/-- A well-formed relative path string: nonempty, and every `'/'`-separated
segment is well-formed (this rules out absolute paths, trailing slashes
and repeated slashes). -/
def ValidPath (s : String) : Bool := decide (s ≠ "") && (strSegs s).all validSeg

/-- `segsLe q p`: the segment list `q` is a prefix of the segment list `p`
(so the path `q` is `p` itself or an ancestor directory of `p`). -/
def segsLe : Path → Path → Bool
  | [], _ => true
  | _ :: _, [] => false
  | a :: q, b :: p => decide (a = b) && segsLe q p

/-- The state observable during a run: the filesystem and the standard
output emitted so far (one string per printed line). -/
structure RunState where
  fs : FS
  out : List String
deriving DecidableEq

/-- The line printed for a processed path: `print(f"Created: {path}")`. -/
def createdLine (p : String) : String := "Created: " ++ p

/-- One iteration of the loop body on `path`:
`os.makedirs(os.path.dirname(path), exist_ok=True)`, then
`open(path, 'a')` immediately closed, then the confirmation print.
Returns the resulting state together with the raised error, if any;
on an error the state reflects exactly the mutations performed before the
raise (directories created by `makedirs` remain). -/
def step (st : RunState) (path : String) : RunState × Option OSErr :=
  match FS.makedirs st.fs (strSegs (dirname path)) true with
  | .error e => (st, some e)
  | .ok fs1 =>
    match FS.openAppend fs1 (strSegs path) with
    | .error e => (⟨fs1, st.out⟩, some e)
    | .ok fs2 => (⟨fs2, st.out ++ [createdLine path]⟩, none)

/-- The main loop `for path in paths: ...`: processes the paths in order,
aborting at the first error (an uncaught exception terminates the
program); the returned state reflects everything done up to that point. -/
def run : RunState → List String → RunState × Option OSErr
  | st, [] => (st, none)
  | st, p :: rest =>
    match step st p with
    | (st1, some e) => (st1, some e)
    | (st1, none) => run st1 rest

/-- The filesystem of an empty working directory. -/
def emptyFS : FS := ⟨[]⟩

/-- The initial run state: empty working directory, nothing printed. -/
def initState : RunState := ⟨emptyFS, []⟩

/-- The hardcoded path list `paths` from `src/create_structure.py`
(the commented-out entries are not part of the list). -/
def paths : List String :=
  [ "src/components/EnhancedSearch.tsx"
  , "src/components/StationCard.tsx"
  , "src/components/MapControls.tsx"
  , "src/components/ClickableStats.tsx"
  , "src/components/ListViewSidebar.tsx"
  , "src/components/MapViewSidebar.tsx"
  , "src/components/DarkModeToggle.tsx"
  , "src/components/index.ts"
  , "src/types/gasStationTypes.ts"
  , "src/utils/gasStationUtils.ts"
  , "src/DetailedMapView.tsx"
  , "src/GasStationsList.tsx"
  ]

/-! ## Basic lemmas about the filesystem map -/

theorem FS.lookup_insert (fs : FS) (p q : Path) (n : Node) :
    (fs.insert p n).lookup q = if p = q then some n else fs.lookup q := rfl

theorem FS.lookup_insert_self (fs : FS) (p : Path) (n : Node) :
    (fs.insert p n).lookup p = some n := by
  simp [FS.lookup_insert]

theorem FS.lookup_insert_ne (fs : FS) (p q : Path) (n : Node) (h : p ≠ q) :
    (fs.insert p n).lookup q = fs.lookup q := by
  simp [FS.lookup_insert, h]

/-! ## The prefix order on segment paths -/

theorem segsLe_iff (q p : Path) : segsLe q p = true ↔ ∃ t, q ++ t = p := by
  induction q generalizing p with
  | nil => simp [segsLe]
  | cons a q ih =>
    cases p with
    | nil => simp [segsLe]
    | cons b p =>
      simp only [segsLe, Bool.and_eq_true, decide_eq_true_eq, ih, List.cons_append,
        List.cons.injEq]
      constructor
      · rintro ⟨rfl, t, rfl⟩; exact ⟨t, rfl, rfl⟩
      · rintro ⟨t, rfl, rfl⟩; exact ⟨rfl, t, rfl⟩

theorem segsLe_refl (p : Path) : segsLe p p = true :=
  (segsLe_iff p p).2 ⟨[], by simp⟩

theorem segsLe_length {q p : Path} (h : segsLe q p = true) : q.length ≤ p.length := by
  obtain ⟨t, rfl⟩ := (segsLe_iff q p).1 h
  simp

theorem segsLe_trans {a b c : Path} (h1 : segsLe a b = true) (h2 : segsLe b c = true) :
    segsLe a c = true := by
  obtain ⟨t1, rfl⟩ := (segsLe_iff a b).1 h1
  obtain ⟨t2, rfl⟩ := (segsLe_iff _ c).1 h2
  exact (segsLe_iff _ _).2 ⟨t1 ++ t2, by simp⟩

theorem segsLe_append {q l : Path} (l' : Path) (h : segsLe q l = true) :
    segsLe q (l ++ l') = true := by
  obtain ⟨t, rfl⟩ := (segsLe_iff q l).1 h
  exact (segsLe_iff _ _).2 ⟨t ++ l', by simp⟩

theorem segsLe_dropLast_self (p : Path) : segsLe p.dropLast p = true := by
  rcases List.eq_nil_or_concat p with rfl | ⟨l, x, rfl⟩
  · simp [segsLe]
  · rw [List.concat_eq_append, List.dropLast_concat]
    exact (segsLe_iff _ _).2 ⟨[x], rfl⟩

theorem segsLe_dropLast_iff {q p : Path} (hp : p ≠ []) :
    segsLe q p.dropLast = true ↔ (segsLe q p = true ∧ q ≠ p) := by
  rcases List.eq_nil_or_concat p with rfl | ⟨l, x, rfl⟩
  · exact absurd rfl hp
  · rw [List.concat_eq_append] at hp ⊢
    rw [List.dropLast_concat]
    constructor
    · intro h
      refine ⟨segsLe_append [x] h, ?_⟩
      intro hq
      have := segsLe_length h
      rw [hq] at this
      simp at this
    · rintro ⟨h1, hne⟩
      obtain ⟨t, ht⟩ := (segsLe_iff q _).1 h1
      rcases List.eq_nil_or_concat t with rfl | ⟨t', y, rfl⟩
      · simp at ht
        exact absurd ht hne
      · rw [List.concat_eq_append, ← List.append_assoc] at ht
        have hd := congrArg List.dropLast ht
        rw [List.dropLast_concat, List.dropLast_concat] at hd
        exact (segsLe_iff _ _).2 ⟨t', hd⟩

/-! ## Path resolution -/

theorem resolveSegs_ok_iff (fs : FS) (rest : Path) : ∀ acc : Path,
    (FS.resolveSegs fs acc rest = .ok () ↔
      ∀ q : Path, q ≠ [] → segsLe q rest = true → fs.lookup (acc ++ q) = some .dir) := by
  induction rest with
  | nil =>
    intro acc
    constructor
    · intro _ q hq hle
      cases q with
      | nil => exact absurd rfl hq
      | cons a q' => simp [segsLe] at hle
    · intro _
      rfl
  | cons s rest ih =>
    intro acc
    cases hl : fs.lookup (acc ++ [s]) with
    | none =>
      constructor
      · intro h
        rw [FS.resolveSegs, hl] at h
        exact absurd h (by simp)
      · intro h
        have := h [s] (by simp) (by simp [segsLe, segsLe_refl])
        rw [hl] at this
        exact absurd this (by simp)
    | some n =>
      cases n with
      | file c =>
        constructor
        · intro h
          rw [FS.resolveSegs, hl] at h
          exact absurd h (by simp)
        · intro h
          have := h [s] (by simp) (by simp [segsLe, segsLe_refl])
          rw [hl] at this
          exact absurd this (by simp)
      | dir =>
        rw [FS.resolveSegs, hl, ih (acc ++ [s])]
        constructor
        · intro h q hq hle
          cases q with
          | nil => exact absurd rfl hq
          | cons a q' =>
            have haq : a = s ∧ segsLe q' rest = true := by
              simpa [segsLe, Bool.and_eq_true, decide_eq_true_eq] using hle
            obtain ⟨rfl, hle'⟩ := haq
            cases q' with
            | nil => simpa using hl
            | cons b q'' =>
              have := h (b :: q'') (by simp) hle'
              simpa [List.append_assoc] using this
        · intro h q hq hle
          have := h (s :: q) (by simp) (by simp [segsLe, hle])
          simpa [List.append_assoc] using this

theorem resolveDir_ok_iff (fs : FS) (p : Path) :
    FS.resolveDir fs p = .ok () ↔
      ∀ q : Path, q ≠ [] → segsLe q p = true → fs.lookup q = some .dir := by
  rw [FS.resolveDir, resolveSegs_ok_iff fs p []]
  simp

/-! ## Lemmas about `mkdir`, `makedirs` and `openAppend` -/

theorem isDirAt_eq_lookup {fs : FS} {p : Path} (hp : p ≠ []) :
    FS.isDirAt fs p = true ↔ fs.lookup p = some .dir := by
  cases p with
  | nil => exact absurd rfl hp
  | cons a p' => simp [FS.isDirAt]

theorem exists_concat_of_ne_nil {α : Type _} {p : List α} (hp : p ≠ []) :
    ∃ l x, p = l ++ [x] := by
  rcases List.eq_nil_or_concat p with rfl | ⟨l, x, rfl⟩
  · exact absurd rfl hp
  · exact ⟨l, x, by simp⟩

theorem makedirs_nil (fs : FS) (eo : Bool) :
    FS.makedirs fs [] eo = .error .fileNotFound := rfl

theorem mkdir_ok_elim {fs : FS} {p : Path} {fs' : FS} (h : FS.mkdir fs p = .ok fs') :
    p ≠ [] ∧ FS.resolveDir fs p.dropLast = .ok () ∧ fs.lookup p = none ∧
      fs' = fs.insert p .dir := by
  cases p with
  | nil => simp [FS.mkdir] at h
  | cons a p' =>
    cases hres : FS.resolveDir fs ((a :: p').dropLast) with
    | error e =>
      simp only [FS.mkdir, hres] at h
      exact Except.noConfusion h
    | ok u =>
      cases u
      cases hl : fs.lookup (a :: p') with
      | some n =>
        simp only [FS.mkdir, hres, hl] at h
        exact Except.noConfusion h
      | none =>
        simp only [FS.mkdir, hres, hl, Except.ok.injEq] at h
        exact ⟨by simp, rfl, rfl, h.symm⟩

theorem mkdirTry_ok_elim {fs : FS} {p : Path} {eo : Bool} {fs' : FS}
    (h : FS.mkdirTry fs p eo = .ok fs') :
    (p ≠ [] ∧ FS.resolveDir fs p.dropLast = .ok () ∧ fs.lookup p = none ∧
      fs' = fs.insert p .dir)
    ∨ (fs' = fs ∧ FS.isDirAt fs p = true) := by
  cases hmk : FS.mkdir fs p with
  | ok fs1 =>
    simp only [FS.mkdirTry, hmk, Except.ok.injEq] at h
    exact Or.inl (h ▸ mkdir_ok_elim hmk)
  | error e =>
    simp only [FS.mkdirTry, hmk] at h
    by_cases hc : (eo = true ∧ FS.isDirAt fs p = true)
    · rw [if_pos hc] at h
      injection h with h'
      exact Or.inr ⟨h'.symm, hc.2⟩
    · rw [if_neg hc] at h
      cases h

theorem mkdirTry_mono {fs : FS} {p : Path} {eo : Bool} {fs' : FS}
    (h : FS.mkdirTry fs p eo = .ok fs') {q : Path} {n : Node}
    (hq : fs.lookup q = some n) : fs'.lookup q = some n := by
  rcases mkdirTry_ok_elim h with ⟨hp, hres, hl, rfl⟩ | ⟨rfl, _⟩
  · rw [FS.lookup_insert_ne]
    · exact hq
    · intro he
      rw [he, hq] at hl
      cases hl
  · exact hq

theorem mkdirTry_new {fs : FS} {p : Path} {eo : Bool} {fs' : FS}
    (h : FS.mkdirTry fs p eo = .ok fs') {q : Path} {n : Node}
    (hq : fs'.lookup q = some n) :
    fs.lookup q = some n ∨ (fs.lookup q = none ∧ n = .dir ∧ q ≠ [] ∧ q = p) := by
  rcases mkdirTry_ok_elim h with ⟨hp, hres, hl, rfl⟩ | ⟨rfl, _⟩
  · by_cases hpq : p = q
    · subst hpq
      rw [FS.lookup_insert_self] at hq
      exact Or.inr ⟨hl, (Option.some.inj hq).symm, hp, rfl⟩
    · rw [FS.lookup_insert_ne _ _ _ _ hpq] at hq
      exact Or.inl hq
  · exact Or.inl hq

theorem mkdirTry_ok_dir {fs : FS} {p : Path} {eo : Bool} {fs' : FS}
    (h : FS.mkdirTry fs p eo = .ok fs') (hp : p ≠ []) :
    fs'.lookup p = some .dir := by
  rcases mkdirTry_ok_elim h with ⟨_, _, _, rfl⟩ | ⟨rfl, hdir⟩
  · exact FS.lookup_insert_self fs p .dir
  · exact (isDirAt_eq_lookup hp).1 hdir

theorem makedirsRev_mono {eo : Bool} : ∀ {rp : List String} {fs fs' : FS},
    FS.makedirsRev fs eo rp = .ok fs' → ∀ {q : Path} {n : Node},
      fs.lookup q = some n → fs'.lookup q = some n := by
  intro rp
  induction rp with
  | nil =>
    intro fs fs' h
    simp [FS.makedirsRev] at h
  | cons tail rhead ih =>
    intro fs fs' h q n hq
    rw [FS.makedirsRev] at h
    by_cases hg : (rhead ≠ [] ∧ tail ≠ "" ∧ FS.existsAt fs rhead.reverse = false)
    · rw [if_pos hg] at h
      cases hrec : FS.makedirsRev fs eo rhead with
      | ok fs1 =>
        rw [hrec] at h
        simp only [FS.makedirsCont] at h
        by_cases ht : tail = "."
        · rw [if_pos ht] at h
          injection h with h'
          exact h' ▸ ih hrec hq
        · rw [if_neg ht] at h
          exact mkdirTry_mono h (ih hrec hq)
      | error e =>
        rw [hrec] at h
        simp only [FS.makedirsCont] at h
        by_cases he : e = OSErr.fileExists
        · subst he
          rw [if_pos rfl] at h
          by_cases ht : tail = "."
          · rw [if_pos ht] at h
            injection h with h'
            exact h' ▸ hq
          · rw [if_neg ht] at h
            exact mkdirTry_mono h hq
        · rw [if_neg he] at h
          exact Except.noConfusion h
    · rw [if_neg hg] at h
      exact mkdirTry_mono h hq

theorem makedirsRev_new {eo : Bool} : ∀ {rp : List String} {fs fs' : FS},
    FS.makedirsRev fs eo rp = .ok fs' → ∀ {q : Path} {n : Node},
      fs'.lookup q = some n →
      fs.lookup q = some n ∨
        (fs.lookup q = none ∧ n = .dir ∧ q ≠ [] ∧ segsLe q rp.reverse = true) := by
  intro rp
  induction rp with
  | nil =>
    intro fs fs' h
    simp [FS.makedirsRev] at h
  | cons tail rhead ih =>
    intro fs fs' h q n hq
    have hrevname : (tail :: rhead).reverse = rhead.reverse ++ [tail] := by simp
    rw [FS.makedirsRev] at h
    by_cases hg : (rhead ≠ [] ∧ tail ≠ "" ∧ FS.existsAt fs rhead.reverse = false)
    · rw [if_pos hg] at h
      cases hrec : FS.makedirsRev fs eo rhead with
      | ok fs1 =>
        rw [hrec] at h
        simp only [FS.makedirsCont] at h
        by_cases ht : tail = "."
        · rw [if_pos ht] at h
          injection h with h'
          subst h'
          rcases ih hrec hq with hind | ⟨h1, h2, h3, h4⟩
          · exact Or.inl hind
          · exact Or.inr ⟨h1, h2, h3, hrevname ▸ segsLe_append [tail] h4⟩
        · rw [if_neg ht] at h
          rcases mkdirTry_new h hq with h1 | ⟨h1, h2, h3, h4⟩
          · rcases ih hrec h1 with hind | ⟨ha, hb, hc, hd⟩
            · exact Or.inl hind
            · exact Or.inr ⟨ha, hb, hc, hrevname ▸ segsLe_append [tail] hd⟩
          · subst h4
            cases hq0 : fs.lookup ((tail :: rhead).reverse) with
            | some m =>
              have hm := makedirsRev_mono hrec hq0
              rw [h1] at hm
              exact Option.noConfusion hm
            | none => exact Or.inr ⟨rfl, h2, h3, segsLe_refl _⟩
      | error e =>
        rw [hrec] at h
        simp only [FS.makedirsCont] at h
        by_cases he : e = OSErr.fileExists
        · subst he
          rw [if_pos rfl] at h
          by_cases ht : tail = "."
          · rw [if_pos ht] at h
            injection h with h'
            exact Or.inl (h' ▸ hq)
          · rw [if_neg ht] at h
            rcases mkdirTry_new h hq with h1 | ⟨h1, h2, h3, h4⟩
            · exact Or.inl h1
            · subst h4
              exact Or.inr ⟨h1, h2, h3, segsLe_refl _⟩
        · rw [if_neg he] at h
          exact Except.noConfusion h
    · rw [if_neg hg] at h
      rcases mkdirTry_new h hq with h1 | ⟨h1, h2, h3, h4⟩
      · exact Or.inl h1
      · subst h4
        exact Or.inr ⟨h1, h2, h3, segsLe_refl _⟩

theorem makedirsRev_ok_dir {eo : Bool} {tail : String} {rhead : List String} {fs fs' : FS}
    (h : FS.makedirsRev fs eo (tail :: rhead) = .ok fs') (ht : tail ≠ ".") :
    fs'.lookup ((tail :: rhead).reverse) = some .dir := by
  have hname : (tail :: rhead).reverse ≠ [] := by simp
  rw [FS.makedirsRev] at h
  by_cases hg : (rhead ≠ [] ∧ tail ≠ "" ∧ FS.existsAt fs rhead.reverse = false)
  · rw [if_pos hg] at h
    cases hrec : FS.makedirsRev fs eo rhead with
    | ok fs1 =>
      rw [hrec] at h
      simp only [FS.makedirsCont] at h
      rw [if_neg ht] at h
      exact mkdirTry_ok_dir h hname
    | error e =>
      rw [hrec] at h
      simp only [FS.makedirsCont] at h
      by_cases he : e = OSErr.fileExists
      · subst he
        rw [if_pos rfl, if_neg ht] at h
        exact mkdirTry_ok_dir h hname
      · rw [if_neg he] at h
        exact Except.noConfusion h
  · rw [if_neg hg] at h
    exact mkdirTry_ok_dir h hname

theorem makedirsRev_noop {tail : String} {rhead : List String} {fs : FS}
    (hdir : fs.lookup ((tail :: rhead).reverse) = some .dir)
    (hex : rhead ≠ [] → FS.existsAt fs rhead.reverse = true) :
    FS.makedirsRev fs true (tail :: rhead) = .ok fs := by
  have hname : (tail :: rhead).reverse ≠ [] := by simp
  have hg : ¬(rhead ≠ [] ∧ tail ≠ "" ∧ FS.existsAt fs rhead.reverse = false) := by
    rintro ⟨h1, _, h3⟩
    rw [hex h1] at h3
    cases h3
  rw [FS.makedirsRev, if_neg hg]
  rw [List.reverse_cons] at hdir hname ⊢
  cases hmk : FS.mkdir fs (rhead.reverse ++ [tail]) with
  | ok fs1 =>
    have := (mkdir_ok_elim hmk).2.2.1
    rw [hdir] at this
    exact Option.noConfusion this
  | error e =>
    have hd : FS.isDirAt fs (rhead.reverse ++ [tail]) = true :=
      (isDirAt_eq_lookup hname).2 hdir
    simp [FS.mkdirTry, hmk, hd]

theorem makedirs_mono {fs : FS} {p : Path} {eo : Bool} {fs' : FS}
    (h : FS.makedirs fs p eo = .ok fs') {q : Path} {n : Node}
    (hq : fs.lookup q = some n) : fs'.lookup q = some n :=
  makedirsRev_mono h hq

theorem makedirs_new {fs : FS} {p : Path} {eo : Bool} {fs' : FS}
    (h : FS.makedirs fs p eo = .ok fs') {q : Path} {n : Node}
    (hq : fs'.lookup q = some n) :
    fs.lookup q = some n ∨
      (fs.lookup q = none ∧ n = .dir ∧ q ≠ [] ∧ segsLe q p = true) := by
  have := makedirsRev_new h hq
  rwa [List.reverse_reverse] at this

theorem makedirs_ok_ne_nil {fs : FS} {p : Path} {eo : Bool} {fs' : FS}
    (h : FS.makedirs fs p eo = .ok fs') : p ≠ [] := by
  rintro rfl
  rw [makedirs_nil] at h
  cases h

theorem makedirs_ok_dir {fs : FS} {p : Path} {eo : Bool} {fs' : FS}
    (h : FS.makedirs fs p eo = .ok fs') (hdot : ∀ s ∈ p, s ≠ ".") :
    fs'.lookup p = some .dir := by
  obtain ⟨l, x, rfl⟩ := exists_concat_of_ne_nil (makedirs_ok_ne_nil h)
  rw [FS.makedirs, show (l ++ [x]).reverse = x :: l.reverse by simp] at h
  have := makedirsRev_ok_dir h (hdot x (by simp))
  rwa [show (x :: l.reverse).reverse = l ++ [x] by simp] at this

theorem makedirs_noop {fs : FS} {p : Path} (hp : p ≠ [])
    (hdir : fs.lookup p = some .dir)
    (hex : p.dropLast ≠ [] → FS.existsAt fs p.dropLast = true) :
    FS.makedirs fs p true = .ok fs := by
  obtain ⟨l, x, rfl⟩ := exists_concat_of_ne_nil hp
  rw [FS.makedirs, show (l ++ [x]).reverse = x :: l.reverse by simp]
  apply makedirsRev_noop
  · rwa [show (x :: l.reverse).reverse = l ++ [x] by simp]
  · intro hl
    rw [List.reverse_reverse]
    rw [List.dropLast_concat] at hex
    apply hex
    simpa using hl

theorem openAppend_ok_elim {fs : FS} {p : Path} {fs' : FS}
    (h : FS.openAppend fs p = .ok fs') :
    p ≠ [] ∧ (∀ q : Path, q ≠ [] → segsLe q p.dropLast = true → fs.lookup q = some .dir) ∧
      ((∃ c, fs.lookup p = some (.file c) ∧ fs' = fs) ∨
        (fs.lookup p = none ∧ fs' = fs.insert p (.file ""))) := by
  cases p with
  | nil => simp [FS.openAppend] at h
  | cons a p' =>
    cases hres : FS.resolveDir fs ((a :: p').dropLast) with
    | error e =>
      simp only [FS.openAppend, hres] at h
      exact Except.noConfusion h
    | ok u =>
      cases u
      refine ⟨by simp, (resolveDir_ok_iff fs _).1 hres, ?_⟩
      cases hl : fs.lookup (a :: p') with
      | none =>
        simp only [FS.openAppend, hres, hl, Except.ok.injEq] at h
        exact Or.inr ⟨rfl, h.symm⟩
      | some n =>
        cases n with
        | dir =>
          simp only [FS.openAppend, hres, hl] at h
          exact Except.noConfusion h
        | file c =>
          simp only [FS.openAppend, hres, hl, Except.ok.injEq] at h
          exact Or.inl ⟨c, rfl, h.symm⟩

theorem openAppend_mono {fs : FS} {p : Path} {fs' : FS}
    (h : FS.openAppend fs p = .ok fs') {q : Path} {n : Node}
    (hq : fs.lookup q = some n) : fs'.lookup q = some n := by
  rcases (openAppend_ok_elim h).2.2 with ⟨c, _, rfl⟩ | ⟨hl, rfl⟩
  · exact hq
  · rw [FS.lookup_insert_ne]
    · exact hq
    · intro he
      rw [he, hq] at hl
      cases hl

theorem openAppend_file {fs : FS} {p : Path} {fs' : FS}
    (h : FS.openAppend fs p = .ok fs') :
    ∃ c, fs'.lookup p = some (.file c) ∧
      (fs.lookup p = none → c = "") ∧
      (∀ c0, fs.lookup p = some (.file c0) → c = c0) := by
  rcases (openAppend_ok_elim h).2.2 with ⟨c, hl, rfl⟩ | ⟨hl, rfl⟩
  · refine ⟨c, hl, ?_, ?_⟩
    · intro hn
      rw [hn] at hl
      cases hl
    · intro c0 h0
      rw [h0] at hl
      exact (Node.file.inj (Option.some.inj hl)).symm
  · refine ⟨"", FS.lookup_insert_self fs p _, fun _ => rfl, ?_⟩
    intro c0 h0
    rw [h0] at hl
    cases hl

theorem openAppend_noop {fs : FS} {p : Path} (hp : p ≠ []) {c : String}
    (hf : fs.lookup p = some (.file c))
    (hres : ∀ q : Path, q ≠ [] → segsLe q p.dropLast = true → fs.lookup q = some .dir) :
    FS.openAppend fs p = .ok fs := by
  cases p with
  | nil => exact absurd rfl hp
  | cons a p' =>
    have hok : FS.resolveDir fs ((a :: p').dropLast) = .ok () :=
      (resolveDir_ok_iff fs _).2 hres
    simp only [FS.openAppend, hok, hf]

/-! ## Lemmas about the loop body and the main loop -/

theorem run_nil (st : RunState) : run st [] = (st, none) := rfl

theorem step_ok_elim {st : RunState} {p : String} {st' : RunState}
    (h : step st p = (st', none)) :
    ∃ fs1, FS.makedirs st.fs (strSegs (dirname p)) true = .ok fs1 ∧
      FS.openAppend fs1 (strSegs p) = .ok st'.fs ∧
      st'.out = st.out ++ [createdLine p] := by
  cases hmd : FS.makedirs st.fs (strSegs (dirname p)) true with
  | error e =>
    simp only [step, hmd, Prod.mk.injEq] at h
    exact Option.noConfusion h.2
  | ok fs1 =>
    cases hop : FS.openAppend fs1 (strSegs p) with
    | error e =>
      simp only [step, hmd, hop, Prod.mk.injEq] at h
      exact Option.noConfusion h.2
    | ok fs2 =>
      simp only [step, hmd, hop, Prod.mk.injEq] at h
      rw [← h.1]
      exact ⟨fs1, rfl, hop, rfl⟩

theorem step_eq_ok {st : RunState} {p : String} {fs1 fs2 : FS}
    (hmd : FS.makedirs st.fs (strSegs (dirname p)) true = .ok fs1)
    (hop : FS.openAppend fs1 (strSegs p) = .ok fs2) :
    step st p = (⟨fs2, st.out ++ [createdLine p]⟩, none) := by
  simp only [step, hmd, hop]

theorem step_fs_mono (st : RunState) (p : String) {q : Path} {n : Node}
    (hq : st.fs.lookup q = some n) : (step st p).1.fs.lookup q = some n := by
  cases hmd : FS.makedirs st.fs (strSegs (dirname p)) true with
  | error e =>
    simp only [step, hmd]
    exact hq
  | ok fs1 =>
    cases hop : FS.openAppend fs1 (strSegs p) with
    | error e =>
      simp only [step, hmd, hop]
      exact makedirs_mono hmd hq
    | ok fs2 =>
      simp only [step, hmd, hop]
      exact openAppend_mono hop (makedirs_mono hmd hq)

theorem step_err_out {st : RunState} {p : String} {st' : RunState} {e : OSErr}
    (h : step st p = (st', some e)) : st'.out = st.out := by
  cases hmd : FS.makedirs st.fs (strSegs (dirname p)) true with
  | error e0 =>
    simp only [step, hmd, Prod.mk.injEq] at h
    rw [← h.1]
  | ok fs1 =>
    cases hop : FS.openAppend fs1 (strSegs p) with
    | error e0 =>
      simp only [step, hmd, hop, Prod.mk.injEq] at h
      rw [← h.1]
    | ok fs2 =>
      simp only [step, hmd, hop, Prod.mk.injEq] at h
      exact Option.noConfusion h.2

theorem step_ok_new {st : RunState} {p : String} {st' : RunState}
    (h : step st p = (st', none)) {q : Path} {n : Node}
    (hq : st'.fs.lookup q = some n) :
    st.fs.lookup q = some n ∨
      (st.fs.lookup q = none ∧
        ((n = .file "" ∧ q = strSegs p) ∨
          (n = .dir ∧ q ≠ [] ∧ segsLe q (strSegs (dirname p)) = true))) := by
  obtain ⟨fs1, hmd, hop, _⟩ := step_ok_elim h
  have hnone1 : ∀ {m : Node}, st.fs.lookup q = some m → fs1.lookup q = some m :=
    fun hm => makedirs_mono hmd hm
  rcases (openAppend_ok_elim hop).2.2 with ⟨c, hl, hfs⟩ | ⟨hl, hfs⟩
  · rw [hfs] at hq
    rcases makedirs_new hmd hq with h1 | ⟨h1, h2, h3, h4⟩
    · exact Or.inl h1
    · exact Or.inr ⟨h1, Or.inr ⟨h2, h3, h4⟩⟩
  · rw [hfs] at hq
    by_cases hqp : strSegs p = q
    · subst hqp
      rw [FS.lookup_insert_self] at hq
      cases hq0 : st.fs.lookup (strSegs p) with
      | some m =>
        have := hnone1 hq0
        rw [hl] at this
        exact Option.noConfusion this
      | none =>
        exact Or.inr ⟨rfl, Or.inl ⟨(Option.some.inj hq).symm, rfl⟩⟩
    · rw [FS.lookup_insert_ne _ _ _ _ hqp] at hq
      rcases makedirs_new hmd hq with h1 | ⟨h1, h2, h3, h4⟩
      · exact Or.inl h1
      · exact Or.inr ⟨h1, Or.inr ⟨h2, h3, h4⟩⟩

theorem run_cons_err {st : RunState} {p : String} {rest : List String} {st1 : RunState}
    {e : OSErr} (h : step st p = (st1, some e)) :
    run st (p :: rest) = (st1, some e) := by
  simp only [run, h]

theorem run_cons_ok {st : RunState} {p : String} {rest : List String} {st1 : RunState}
    (h : step st p = (st1, none)) :
    run st (p :: rest) = run st1 rest := by
  simp only [run, h]

theorem run_fs_mono : ∀ (L : List String) (st : RunState) {q : Path} {n : Node},
    st.fs.lookup q = some n → (run st L).1.fs.lookup q = some n := by
  intro L
  induction L with
  | nil =>
    intro st q n hq
    exact hq
  | cons p rest ih =>
    intro st q n hq
    have hstep := step_fs_mono st p hq
    cases hs : step st p with
    | mk st1 oe =>
      rw [hs] at hstep
      cases oe with
      | some e =>
        rw [run_cons_err hs]
        exact hstep
      | none =>
        rw [run_cons_ok hs]
        exact ih st1 hstep

theorem run_out_mono : ∀ (L : List String) (st : RunState),
    ∃ t, (run st L).1.out = st.out ++ t := by
  intro L
  induction L with
  | nil =>
    intro st
    exact ⟨[], by simp [run_nil]⟩
  | cons p rest ih =>
    intro st
    cases hs : step st p with
    | mk st1 oe =>
      cases oe with
      | some e =>
        rw [run_cons_err hs]
        exact ⟨[], by simp [step_err_out hs]⟩
      | none =>
        rw [run_cons_ok hs]
        obtain ⟨t, ht⟩ := ih st1
        obtain ⟨fs1, _, _, hout⟩ := step_ok_elim hs
        exact ⟨[createdLine p] ++ t, by rw [ht, hout, List.append_assoc]⟩

theorem run_ok_out : ∀ (L : List String) (st : RunState), (run st L).2 = none →
    (run st L).1.out = st.out ++ L.map createdLine := by
  intro L
  induction L with
  | nil =>
    intro st _
    simp [run_nil]
  | cons p rest ih =>
    intro st h
    cases hs : step st p with
    | mk st1 oe =>
      cases oe with
      | some e =>
        rw [run_cons_err hs] at h
        exact Option.noConfusion h
      | none =>
        rw [run_cons_ok hs] at h ⊢
        obtain ⟨fs1, _, _, hout⟩ := step_ok_elim hs
        rw [ih st1 h, hout]
        simp

theorem run_ok_cons_elim {st : RunState} {p : String} {rest : List String}
    (h : (run st (p :: rest)).2 = none) :
    ∃ st1, step st p = (st1, none) ∧ run st (p :: rest) = run st1 rest ∧
      (run st1 rest).2 = none := by
  cases hs : step st p with
  | mk st1 oe =>
    cases oe with
    | some e =>
      rw [run_cons_err hs] at h
      exact Option.noConfusion h
    | none =>
      rw [run_cons_ok hs] at h
      exact ⟨st1, rfl, run_cons_ok hs, h⟩

/-! ## Character-level lemmas: splitting, joining and `dirname` -/

/-- Join character-list segments with a separator (left inverse of
`splitChars`, used only in proofs). -/
def joinChars (sep : Char) : List (List Char) → List Char
  | [] => []
  | [x] => x
  | x :: y :: rest => x ++ sep :: joinChars sep (y :: rest)

theorem splitChars_ne_nil (sep : Char) : ∀ l : List Char, splitChars sep l ≠ [] := by
  intro l
  cases l with
  | nil => simp [splitChars]
  | cons c rest =>
    rw [splitChars]
    by_cases hc : c = sep
    · rw [if_pos hc]
      simp
    · rw [if_neg hc]
      cases hs : splitChars sep rest with
      | nil => simp
      | cons h t => simp

theorem joinChars_splitChars (sep : Char) : ∀ l : List Char,
    joinChars sep (splitChars sep l) = l := by
  intro l
  induction l with
  | nil => rfl
  | cons c rest ih =>
    rw [splitChars]
    by_cases hc : c = sep
    · rw [if_pos hc]
      subst hc
      cases hs : splitChars c rest with
      | nil => exact absurd hs (splitChars_ne_nil c rest)
      | cons h t =>
        rw [joinChars, ← hs, ih]
        rfl
    · rw [if_neg hc]
      cases hs : splitChars sep rest with
      | nil => exact absurd hs (splitChars_ne_nil sep rest)
      | cons h t =>
        cases t with
        | nil =>
          have hh : h = rest := by
            rw [← ih, hs]
            rfl
          rw [joinChars, hh]
        | cons h2 t2 =>
          have hj : joinChars sep (h :: h2 :: t2) = rest := by rw [← hs, ih]
          rw [joinChars] at hj
          rw [joinChars, ← hj]
          rfl

theorem not_mem_of_mem_splitChars (sep : Char) : ∀ (l m : List Char),
    m ∈ splitChars sep l → sep ∉ m := by
  intro l
  induction l with
  | nil =>
    intro m hm
    simp [splitChars] at hm
    subst hm
    simp
  | cons c rest ih =>
    intro m hm
    rw [splitChars] at hm
    by_cases hc : c = sep
    · rw [if_pos hc] at hm
      rcases List.mem_cons.1 hm with rfl | hm'
      · simp
      · exact ih m hm'
    · rw [if_neg hc] at hm
      cases hs : splitChars sep rest with
      | nil => exact absurd hs (splitChars_ne_nil sep rest)
      | cons h t =>
        rw [hs] at hm
        rcases List.mem_cons.1 hm with rfl | hm'
        · intro hmem
          rcases List.mem_cons.1 hmem with h1 | h1
          · exact hc h1.symm
          · exact ih h (by rw [hs]; exact List.mem_cons_self h t) h1
        · exact ih m (by rw [hs]; exact List.mem_cons_of_mem h hm')

theorem splitChars_no_sep (sep : Char) : ∀ x : List Char, sep ∉ x →
    splitChars sep x = [x] := by
  intro x
  induction x with
  | nil => intro _; rfl
  | cons c x' ih =>
    intro hx
    have hc : ¬ c = sep := by
      rintro rfl
      exact hx (List.mem_cons_self c x')
    have hx' : sep ∉ x' := fun h => hx (List.mem_cons_of_mem c h)
    rw [splitChars, if_neg hc, ih hx']

theorem splitChars_append_sep (sep : Char) : ∀ x m : List Char, sep ∉ x →
    splitChars sep (x ++ sep :: m) = x :: splitChars sep m := by
  intro x
  induction x with
  | nil =>
    intro m _
    rw [List.nil_append, splitChars, if_pos rfl]
  | cons c x' ih =>
    intro m hx
    have hc : ¬ c = sep := by
      rintro rfl
      exact hx (List.mem_cons_self c x')
    have hx' : sep ∉ x' := fun h => hx (List.mem_cons_of_mem c h)
    rw [List.cons_append, splitChars, if_neg hc, ih m hx']

theorem splitChars_joinChars (sep : Char) : ∀ parts : List (List Char),
    parts ≠ [] → (∀ m ∈ parts, sep ∉ m) →
    splitChars sep (joinChars sep parts) = parts := by
  intro parts
  induction parts with
  | nil =>
    intro h _
    exact absurd rfl h
  | cons x pt ih =>
    intro _ hall
    cases pt with
    | nil => exact splitChars_no_sep sep x (hall x (List.mem_cons_self x []))
    | cons y pt' =>
      rw [joinChars, splitChars_append_sep sep x _ (hall x (List.mem_cons_self x _)),
        ih (by simp) (fun m hm => hall m (List.mem_cons_of_mem x hm))]

theorem joinChars_ne_nil (sep : Char) (x : List Char) (pt : List (List Char))
    (hx : x ≠ []) : joinChars sep (x :: pt) ≠ [] := by
  cases pt with
  | nil => exact hx
  | cons y pt' =>
    rw [joinChars]
    simp

theorem joinChars_concat (sep : Char) : ∀ (init : List (List Char)) (x : List Char),
    init ≠ [] → joinChars sep (init ++ [x]) = joinChars sep init ++ sep :: x := by
  intro init
  induction init with
  | nil =>
    intro x h
    exact absurd rfl h
  | cons a init' ih =>
    intro x _
    cases init' with
    | nil => rfl
    | cons b init'' =>
      have ih' := ih x (by simp)
      simp only [List.cons_append] at ih' ⊢
      rw [joinChars, ih', joinChars]
      simp

theorem joinChars_reverse_head (sep : Char) : ∀ (pt : List (List Char)) (x : List Char),
    (∀ m ∈ x :: pt, m ≠ [] ∧ sep ∉ m) →
    ∃ c ra, (joinChars sep (x :: pt)).reverse = c :: ra ∧ c ≠ sep := by
  intro pt
  induction pt with
  | nil =>
    intro x hall
    obtain ⟨hx, hsep⟩ := hall x (List.mem_cons_self x [])
    obtain ⟨l, c, rfl⟩ := exists_concat_of_ne_nil hx
    refine ⟨c, l.reverse, by simp [joinChars], ?_⟩
    rintro rfl
    exact hsep (by simp)
  | cons y pt' ih =>
    intro x hall
    obtain ⟨c, ra, hrev, hc⟩ := ih y (fun m hm => hall m (List.mem_cons_of_mem x hm))
    refine ⟨c, ra ++ [sep] ++ x.reverse, ?_, hc⟩
    rw [joinChars, List.reverse_append, List.reverse_cons, hrev]
    simp

theorem dropWhile_append_of_all {α : Type _} (p : α → Bool) : ∀ u v : List α,
    (∀ c ∈ u, p c = true) → List.dropWhile p (u ++ v) = List.dropWhile p v := by
  intro u
  induction u with
  | nil => intro v _; rfl
  | cons c u' ih =>
    intro v hall
    have h1 : p c = true := hall c (List.mem_cons_self c u')
    have h2 := ih v (fun d hd => hall d (List.mem_cons_of_mem c hd))
    simp [List.dropWhile_cons, h1, h2]

theorem dropWhile_all_nil {α : Type _} (p : α → Bool) (u : List α)
    (hall : ∀ c ∈ u, p c = true) : List.dropWhile p u = [] := by
  have := dropWhile_append_of_all p u [] hall
  simpa using this

theorem dirnameChars_append (a b : List Char) (hb : '/' ∉ b) (ha : a ≠ [])
    (hlast : ∀ c ra, a.reverse = c :: ra → c ≠ '/') :
    dirnameChars (a ++ '/' :: b) = a := by
  obtain ⟨c, ra, hrev⟩ : ∃ c ra, a.reverse = c :: ra := by
    cases hA : a.reverse with
    | nil => exact absurd (by simpa using congrArg List.reverse hA) ha
    | cons c ra => exact ⟨c, ra, rfl⟩
  have hc : c ≠ '/' := hlast c ra hrev
  have hballs : ∀ d ∈ b.reverse, (fun c => decide (c ≠ '/')) d = true := by
    intro d hd
    simp only [decide_eq_true_eq]
    rintro rfl
    exact hb (List.mem_reverse.1 hd)
  have hstep1 : ((a ++ '/' :: b).reverse).dropWhile (fun c => decide (c ≠ '/')) =
      '/' :: a.reverse := by
    have hβ : (a ++ '/' :: b).reverse = b.reverse ++ '/' :: a.reverse := by simp
    rw [hβ, dropWhile_append_of_all _ b.reverse _ hballs]
    simp [List.dropWhile_cons]
  have hallfalse : ('/' :: a.reverse).all (fun c => decide (c = '/')) = false := by
    rw [hrev]
    simp [List.all_cons, hc]
  rw [dirnameChars, hstep1, if_neg (by rw [hallfalse]; simp)]
  have hstep2 : ('/' :: a.reverse).dropWhile (fun c => decide (c = '/')) = c :: ra := by
    rw [hrev]
    simp [List.dropWhile_cons, hc]
  rw [hstep2, ← hrev, List.reverse_reverse]

theorem dirnameChars_no_slash (l : List Char) (h : '/' ∉ l) : dirnameChars l = [] := by
  have h1 : l.reverse.dropWhile (fun c => decide (c ≠ '/')) = [] := by
    apply dropWhile_all_nil
    intro c hc
    simp only [decide_eq_true_eq]
    rintro rfl
    exact h (List.mem_reverse.1 hc)
  rw [dirnameChars, h1]
  simp

/-! ## String-level path lemmas -/

theorem string_mk_ne_empty {m : List Char} (h : m ≠ []) : String.mk m ≠ "" := by
  intro hcon
  exact h (by simpa using congrArg String.data hcon)

theorem strSegs_eq (s : String) (hs : s ≠ "") :
    strSegs s = (splitChars '/' s.toList).map String.mk := by
  rw [strSegs, if_neg hs]

theorem strSegs_ne_nil {s : String} (hs : s ≠ "") : strSegs s ≠ [] := by
  rw [strSegs_eq s hs]
  intro h
  exact splitChars_ne_nil '/' s.toList (List.map_eq_nil_iff.1 h)

theorem validPath_elim {s : String} (hv : ValidPath s = true) :
    s ≠ "" ∧ ∀ m ∈ splitChars '/' s.toList,
      m ≠ [] ∧ String.mk m ≠ "." ∧ String.mk m ≠ ".." := by
  rw [ValidPath, Bool.and_eq_true, decide_eq_true_eq] at hv
  obtain ⟨h1, h2⟩ := hv
  refine ⟨h1, ?_⟩
  intro m hm
  have hmem : String.mk m ∈ strSegs s := by
    rw [strSegs_eq s h1]
    exact List.mem_map_of_mem String.mk hm
  have := List.all_eq_true.1 h2 (String.mk m) hmem
  rw [validSeg, decide_eq_true_eq] at this
  exact ⟨fun hme => this.1 (by simp [hme]), this.2.1, this.2.2⟩

theorem valid_ne_empty {s : String} (hv : ValidPath s = true) : s ≠ "" :=
  (validPath_elim hv).1

theorem dirname_segs {s : String} (hv : ValidPath s = true) :
    strSegs (dirname s) = (strSegs s).dropLast := by
  obtain ⟨hs, hseg⟩ := validPath_elim hv
  obtain ⟨init, x, hparts⟩ := exists_concat_of_ne_nil (splitChars_ne_nil '/' s.toList)
  have hjoin : joinChars '/' (splitChars '/' s.toList) = s.toList :=
    joinChars_splitChars '/' s.toList
  have hx_nosep : '/' ∉ x :=
    not_mem_of_mem_splitChars '/' s.toList x (by rw [hparts]; simp)
  cases init with
  | nil =>
    have hlist : s.toList = x := by
      rw [← hjoin, hparts]
      rfl
    have hd : dirnameChars s.toList = [] := by
      rw [hlist]
      exact dirnameChars_no_slash x hx_nosep
    have hdir : dirname s = "" := by
      rw [dirname, hd]
    rw [hdir]
    rw [strSegs_eq s hs, hparts]
    simp [strSegs]
  | cons i0 init' =>
    have hinit_ne : (i0 :: init') ≠ [] := by simp
    have hmem_init : ∀ m ∈ i0 :: init', m ≠ [] ∧ '/' ∉ m := by
      intro m hm
      constructor
      · exact (hseg m (by rw [hparts]; exact List.mem_append_left _ hm)).1
      · exact not_mem_of_mem_splitChars '/' s.toList m
          (by rw [hparts]; exact List.mem_append_left _ hm)
    have hjoin2 : s.toList = joinChars '/' (i0 :: init') ++ '/' :: x := by
      rw [← hjoin, hparts, joinChars_concat '/' _ x hinit_ne]
    have ha_ne : joinChars '/' (i0 :: init') ≠ [] :=
      joinChars_ne_nil '/' i0 init' (hmem_init i0 (List.mem_cons_self i0 init')).1
    have hlast : ∀ c ra, (joinChars '/' (i0 :: init')).reverse = c :: ra → c ≠ '/' := by
      intro c ra hr
      obtain ⟨c', ra', hr', hc'⟩ := joinChars_reverse_head '/' init' i0 hmem_init
      rw [hr] at hr'
      injection hr' with e1 _
      exact e1 ▸ hc'
    have hd : dirnameChars s.toList = joinChars '/' (i0 :: init') := by
      rw [hjoin2]
      exact dirnameChars_append _ x hx_nosep ha_ne hlast
    have hdirname : dirname s = String.mk (joinChars '/' (i0 :: init')) := by
      rw [dirname, hd]
    have hdir_ne : dirname s ≠ "" := by
      rw [hdirname]
      exact string_mk_ne_empty ha_ne
    have htl : (dirname s).toList = joinChars '/' (i0 :: init') := by
      rw [hdirname]
      rfl
    rw [strSegs_eq _ hdir_ne, htl,
      splitChars_joinChars '/' _ hinit_ne (fun m hm => (hmem_init m hm).2)]
    rw [strSegs_eq s hs, hparts, List.map_append,
      show List.map String.mk [x] = [String.mk x] from rfl, List.dropLast_concat]

theorem valid_segs_mem {s : String} (hv : ValidPath s = true) :
    ∀ t ∈ strSegs s, t ≠ "" ∧ t ≠ "." ∧ t ≠ ".." := by
  rw [ValidPath, Bool.and_eq_true] at hv
  intro t ht
  have := List.all_eq_true.1 hv.2 t ht
  rw [validSeg, decide_eq_true_eq] at this
  exact this

theorem mem_of_mem_dropLast {α : Type _} {a : α} {l : List α} (h : a ∈ l.dropLast) :
    a ∈ l := by
  rcases List.eq_nil_or_concat l with rfl | ⟨init, x, rfl⟩
  · simp at h
  · rw [List.concat_eq_append] at h ⊢
    rw [List.dropLast_concat] at h
    exact List.mem_append_left _ h

/-! ## Per-step and whole-run materialization facts -/

theorem step_ok_facts {st : RunState} {p : String} {st' : RunState}
    (hv : ValidPath p = true) (h : step st p = (st', none)) :
    (∃ c, st'.fs.lookup (strSegs p) = some (.file c) ∧
      (st.fs.lookup (strSegs p) = none → c = "") ∧
      (∀ c0, st.fs.lookup (strSegs p) = some (.file c0) → c = c0)) ∧
    (∀ q, q ≠ [] → segsLe q (strSegs p) = true → q ≠ strSegs p →
      st'.fs.lookup q = some .dir) ∧
    st'.out = st.out ++ [createdLine p] := by
  obtain ⟨fs1, hmd, hop, hout⟩ := step_ok_elim h
  have hpne : strSegs p ≠ [] := strSegs_ne_nil (valid_ne_empty hv)
  refine ⟨?_, ?_, hout⟩
  · obtain ⟨c, hc1, hc2, hc3⟩ := openAppend_file hop
    refine ⟨c, hc1, ?_, ?_⟩
    · intro hnone
      apply hc2
      cases hf1 : fs1.lookup (strSegs p) with
      | none => rfl
      | some n =>
        rcases makedirs_new hmd hf1 with h1 | ⟨h1, h2, h3, h4⟩
        · rw [hnone] at h1
          exact Option.noConfusion h1
        · subst h2
          rcases (openAppend_ok_elim hop).2.2 with ⟨c', hc', _⟩ | ⟨hc', _⟩
          · rw [hf1] at hc'
            exact Node.noConfusion (Option.some.inj hc')
          · rw [hf1] at hc'
            exact Option.noConfusion hc'
    · intro c0 h0
      exact hc3 c0 (makedirs_mono hmd h0)
  · intro q hq hle hne
    have hle' : segsLe q ((strSegs p).dropLast) = true :=
      (segsLe_dropLast_iff hpne).2 ⟨hle, hne⟩
    exact openAppend_mono hop ((openAppend_ok_elim hop).2.1 q hq hle')

theorem run_materializes : ∀ (L : List String) (st : RunState) (P : String),
    P ∈ L → ValidPath P = true → (run st L).2 = none →
    (∃ c, (run st L).1.fs.lookup (strSegs P) = some (.file c) ∧
      (st.fs.lookup (strSegs P) = none → c = "") ∧
      (∀ c0, st.fs.lookup (strSegs P) = some (.file c0) → c = c0)) ∧
    (∀ q, q ≠ [] → segsLe q (strSegs P) = true → q ≠ strSegs P →
      (run st L).1.fs.lookup q = some .dir) := by
  intro L
  induction L with
  | nil =>
    intro st P hP
    exact absurd hP (List.not_mem_nil P)
  | cons p rest ih =>
    intro st P hP hv hsucc
    obtain ⟨st1, hs, hrun, hsucc1⟩ := run_ok_cons_elim hsucc
    rw [hrun]
    rcases List.mem_cons.1 hP with rfl | hP'
    · obtain ⟨⟨c, hc1, hc2, hc3⟩, hanc, _⟩ := step_ok_facts hv hs
      constructor
      · exact ⟨c, run_fs_mono rest st1 hc1, hc2, hc3⟩
      · intro q hq hle hne
        exact run_fs_mono rest st1 (hanc q hq hle hne)
    · obtain ⟨⟨c, hc1, hc2, hc3⟩, hanc⟩ := ih st1 P hP' hv hsucc1
      constructor
      · refine ⟨c, hc1, ?_, ?_⟩
        · intro hnone
          cases h1 : st1.fs.lookup (strSegs P) with
          | none => exact hc2 h1
          | some n =>
            rcases step_ok_new hs h1 with hst | ⟨_, hdisj⟩
            · rw [hnone] at hst
              exact Option.noConfusion hst
            · rcases hdisj with ⟨hn, hqe⟩ | ⟨hn, _, _⟩
              · subst hn
                exact hc3 "" h1
              · subst hn
                have hd := run_fs_mono rest st1 h1
                rw [hc1] at hd
                exact Node.noConfusion (Option.some.inj hd)
        · intro c0 h0
          refine hc3 c0 ?_
          have := step_fs_mono st p h0
          rwa [hs] at this
      · exact hanc

theorem run_ok_target_ne : ∀ (L : List String) (st : RunState), (run st L).2 = none →
    ∀ P ∈ L, strSegs (dirname P) ≠ [] := by
  intro L
  induction L with
  | nil =>
    intro st _ P hP
    exact absurd hP (List.not_mem_nil P)
  | cons p rest ih =>
    intro st hsucc P hP
    obtain ⟨st1, hs, _, hsucc1⟩ := run_ok_cons_elim hsucc
    rcases List.mem_cons.1 hP with rfl | hP'
    · obtain ⟨fs1, hmd, _, _⟩ := step_ok_elim hs
      exact makedirs_ok_ne_nil hmd
    · exact ih st1 hsucc1 P hP'

/-! ## Replaying a run on an already materialized filesystem -/

theorem run_replay : ∀ (L : List String) (fs0 : FS) (o : List String),
    (∀ P ∈ L, ValidPath P = true ∧
      (∃ c, fs0.lookup (strSegs P) = some (.file c)) ∧
      (∀ q, q ≠ [] → segsLe q (strSegs P) = true → q ≠ strSegs P →
        fs0.lookup q = some .dir) ∧
      strSegs (dirname P) ≠ []) →
    run ⟨fs0, o⟩ L = (⟨fs0, o ++ L.map createdLine⟩, none) := by
  intro L
  induction L with
  | nil =>
    intro fs0 o _
    simp [run_nil]
  | cons p rest ih =>
    intro fs0 o hall
    obtain ⟨hv, ⟨c, hfile⟩, hanc, htgt⟩ := hall p (List.mem_cons_self p rest)
    have hpne : strSegs p ≠ [] := strSegs_ne_nil (valid_ne_empty hv)
    have htgteq : strSegs (dirname p) = (strSegs p).dropLast := dirname_segs hv
    have hdlne : (strSegs p).dropLast ≠ [] := htgteq ▸ htgt
    have hmdtarget : fs0.lookup ((strSegs p).dropLast) = some .dir := by
      obtain ⟨hle, hne⟩ :=
        (segsLe_dropLast_iff hpne).1 (segsLe_refl ((strSegs p).dropLast))
      exact hanc _ hdlne hle hne
    have hmd : FS.makedirs fs0 (strSegs (dirname p)) true = .ok fs0 := by
      rw [htgteq]
      apply makedirs_noop hdlne hmdtarget
      intro hdl
      obtain ⟨hle, hne⟩ :=
        (segsLe_dropLast_iff hpne).1 (segsLe_dropLast_self ((strSegs p).dropLast))
      have hq := hanc _ hdl hle hne
      rw [FS.existsAt, hq]
      simp
    have hop : FS.openAppend fs0 (strSegs p) = .ok fs0 := by
      apply openAppend_noop hpne hfile
      intro q hq hle
      obtain ⟨hle', hne'⟩ := (segsLe_dropLast_iff hpne).1 hle
      exact hanc q hq hle' hne'
    have hstep : step ⟨fs0, o⟩ p = (⟨fs0, o ++ [createdLine p]⟩, none) := step_eq_ok hmd hop
    rw [run_cons_ok hstep,
      ih fs0 (o ++ [createdLine p]) (fun P hP => hall P (List.mem_cons_of_mem p hP))]
    simp

/-! ## Failure when the parent of a path is a regular file -/

theorem step_fails_of_parent_file {st : RunState} {p : String} {c : String}
    (hv : ValidPath p = true)
    (hl : st.fs.lookup (strSegs (dirname p)) = some (.file c)) :
    ∃ e, (step st p).2 = some e ∧ (step st p).1 = st := by
  cases hmd : FS.makedirs st.fs (strSegs (dirname p)) true with
  | error e => exact ⟨e, by simp [step, hmd], by simp [step, hmd]⟩
  | ok fs1 =>
    exfalso
    have hdot : ∀ t ∈ strSegs (dirname p), t ≠ "." := by
      intro t ht
      rw [dirname_segs hv] at ht
      exact (valid_segs_mem hv t (mem_of_mem_dropLast ht)).2.1
    have hdir := makedirs_ok_dir hmd hdot
    have hfile := makedirs_mono hmd hl
    rw [hdir] at hfile
    exact Node.noConfusion (Option.some.inj hfile)

/-! ## The canonical final filesystem of a successful run

A successful run extends the initial filesystem with exactly: an empty
file at the segment path of every listed path that was absent, and a
directory at every absent nonempty strict ancestor of a listed path.
This characterization depends only on which paths are listed, not on
their order. -/

/-- The lookup function of the canonical extension of `fs0` by the path
list `L`. -/
def canonLookup (fs0 : FS) (L : List String) (q : Path) : Option Node :=
  match fs0.lookup q with
  | some n => some n
  | none =>
    if L.any (fun P => decide (strSegs P = q)) then some (.file "")
    else if L.any (fun P =>
        decide (q ≠ []) && segsLe q (strSegs P) && decide (q ≠ strSegs P)) then
      some .dir
    else none

theorem canonLookup_some {fs0 : FS} {L : List String} {q : Path} {n : Node}
    (h : fs0.lookup q = some n) : canonLookup fs0 L q = some n := by
  simp only [canonLookup, h]

theorem any_perm {α : Type _} {l l' : List α} (h : l.Perm l') (f : α → Bool) :
    l.any f = l'.any f := by
  cases hl : l.any f with
  | true =>
    obtain ⟨x, hx, hfx⟩ := List.any_eq_true.1 hl
    exact (List.any_eq_true.2 ⟨x, h.mem_iff.1 hx, hfx⟩).symm
  | false =>
    cases hl' : l'.any f with
    | false => rfl
    | true =>
      obtain ⟨x, hx, hfx⟩ := List.any_eq_true.1 hl'
      have : l.any f = true := List.any_eq_true.2 ⟨x, h.mem_iff.2 hx, hfx⟩
      rw [hl] at this
      exact Bool.noConfusion this

theorem canonLookup_perm {fs0 : FS} {L L' : List String} (h : L.Perm L') (q : Path) :
    canonLookup fs0 L q = canonLookup fs0 L' q := by
  cases hq : fs0.lookup q with
  | some n => simp only [canonLookup, hq]
  | none =>
    simp only [canonLookup, hq, any_perm h (fun P => decide (strSegs P = q)),
      any_perm h (fun P =>
        decide (q ≠ []) && segsLe q (strSegs P) && decide (q ≠ strSegs P))]

theorem run_ok_canon : ∀ (L : List String) (st : RunState),
    (∀ P ∈ L, ValidPath P = true) → (run st L).2 = none →
    ∀ q, (run st L).1.fs.lookup q = canonLookup st.fs L q := by
  intro L
  induction L with
  | nil =>
    intro st _ _ q
    rw [run_nil]
    cases h : st.fs.lookup q with
    | some n => exact (canonLookup_some (L := []) h).symm
    | none => simp [canonLookup, h]
  | cons p rest ih =>
    intro st hv hsucc q
    obtain ⟨st1, hs, hrun, hsucc1⟩ := run_ok_cons_elim hsucc
    rw [hrun]
    have hvp : ValidPath p = true := hv p (List.mem_cons_self p rest)
    have hvrest : ∀ P ∈ rest, ValidPath P = true :=
      fun P hP => hv P (List.mem_cons_of_mem p hP)
    rw [ih st1 hvrest hsucc1 q]
    have hpne : strSegs p ≠ [] := strSegs_ne_nil (valid_ne_empty hvp)
    cases hq0 : st.fs.lookup q with
    | some n =>
      have h1 : st1.fs.lookup q = some n := by
        have := step_fs_mono st p hq0
        rwa [hs] at this
      rw [canonLookup_some h1, canonLookup_some hq0]
    | none =>
      cases h1 : st1.fs.lookup q with
      | some n =>
        rw [canonLookup_some h1]
        rcases step_ok_new hs h1 with hst | ⟨_, hdisj⟩
        · rw [hq0] at hst
          exact absurd hst (by simp)
        · rcases hdisj with ⟨hn, hqe⟩ | ⟨hn, hqne, hle⟩
          · subst hn
            subst hqe
            simp [canonLookup, hq0]
          · subst hn
            rw [dirname_segs hvp] at hle
            obtain ⟨hleP, hneP⟩ := (segsLe_dropLast_iff hpne).1 hle
            have hany1 : (p :: rest).any (fun P => decide (strSegs P = q)) = false := by
              cases hb : (p :: rest).any (fun P => decide (strSegs P = q)) with
              | false => rfl
              | true =>
                exfalso
                obtain ⟨P', hP', hfx⟩ := List.any_eq_true.1 hb
                rw [decide_eq_true_eq] at hfx
                rcases List.mem_cons.1 hP' with rfl | hP''
                · exact hneP hfx.symm
                · obtain ⟨⟨c, hc1, _, _⟩, _⟩ :=
                    run_materializes rest st1 P' hP'' (hvrest P' hP'') hsucc1
                  have hd := run_fs_mono rest st1 h1
                  rw [hfx] at hc1
                  rw [hc1] at hd
                  exact Node.noConfusion (Option.some.inj hd)
            have hany2 : (p :: rest).any (fun P =>
                decide (q ≠ []) && segsLe q (strSegs P) && decide (q ≠ strSegs P)) =
                  true := by
              refine List.any_eq_true.2 ⟨p, List.mem_cons_self p rest, ?_⟩
              simp [hqne, hleP, hneP]
            simp [canonLookup, hq0, hany1]
            exact Or.inl ⟨⟨hqne, hleP⟩, hneP⟩
      | none =>
        have hfacts := step_ok_facts hvp hs
        have hf1 : (fun P => decide (strSegs P = q)) p = false := by
          simp only [decide_eq_false_iff_not]
          intro he
          obtain ⟨⟨c, hc1, _, _⟩, _, _⟩ := hfacts
          rw [he] at hc1
          rw [hc1] at h1
          exact Option.noConfusion h1
        have hf2 : (fun P =>
            decide (q ≠ []) && segsLe q (strSegs P) && decide (q ≠ strSegs P)) p =
              false := by
          cases hb : (fun P =>
              decide (q ≠ []) && segsLe q (strSegs P) && decide (q ≠ strSegs P)) p with
          | false => rfl
          | true =>
            exfalso
            simp only [Bool.and_eq_true, decide_eq_true_eq] at hb
            obtain ⟨⟨hqne, hle⟩, hne⟩ := hb
            obtain ⟨_, hanc, _⟩ := hfacts
            have := hanc q hqne hle hne
            rw [this] at h1
            exact Option.noConfusion h1
        simp only [canonLookup, hq0, h1, List.any_cons, hf1, hf2, Bool.false_or]

example : strSegs "a/b/c.txt" = ["a", "b", "c.txt"] := by decide

example : dirname "a/b/c.txt" = "a/b" := by decide

example : dirname "file.txt" = "" := by decide

example : dirname "a/b/" = "a/b" := by decide

/-! ## Claim theorems -/

/-- C1: for every path `P` in the input sequence (a well-formed relative
path), after a run of the scaffolding loop that completes without error, a
regular file exists at `P` and every ancestor directory of `P` (every
nonempty strict segment-prefix) exists as a directory; the file is empty
if it was newly created and its content is unchanged if it pre-existed. -/
theorem spec_C1_run_materializes (L : List String) (st : RunState) (P : String)
    (hP : P ∈ L) (hv : ValidPath P = true) (hsucc : (run st L).2 = none) :
    (∃ c, (run st L).1.fs.lookup (strSegs P) = some (.file c) ∧
      (st.fs.lookup (strSegs P) = none → c = "") ∧
      (∀ c0, st.fs.lookup (strSegs P) = some (.file c0) → c = c0)) ∧
    (∀ q, q ≠ [] → segsLe q (strSegs P) = true → q ≠ strSegs P →
      (run st L).1.fs.lookup q = some .dir) :=
  run_materializes L st P hP hv hsucc

/-- Witness for C1 at the concrete run of `["a/b.txt"]` on an empty
working directory. -/
theorem spec_C1_witness :
    "a/b.txt" ∈ ["a/b.txt"] ∧ ValidPath "a/b.txt" = true ∧
      (run initState ["a/b.txt"]).2 = none ∧
      (run initState ["a/b.txt"]).1.fs.lookup (strSegs "a/b.txt") = some (.file "") ∧
      (run initState ["a/b.txt"]).1.fs.lookup ["a"] = some .dir := by
  obtain ⟨⟨c, hc1, hc2, _⟩, hanc⟩ :=
    spec_C1_run_materializes ["a/b.txt"] initState "a/b.txt" (by decide) (by decide)
      (by decide)
  refine ⟨by decide, by decide, by decide, ?_,
    hanc ["a"] (by decide) (by decide) (by decide)⟩
  rwa [hc2 (by decide)] at hc1

/-- C2: the file-touch step (`open(P, 'a')` immediately closed, no bytes
written): when it succeeds on a path whose file already exists with
content `c`, the filesystem is left completely unchanged, so the content
is byte-for-byte preserved; moreover the step never changes or removes any
existing entry (it never truncates). -/
theorem spec_C2_openAppend_preserves (fs : FS) (p : Path) (fs' : FS)
    (h : FS.openAppend fs p = .ok fs') :
    (∀ c, fs.lookup p = some (.file c) → fs' = fs) ∧
    (∀ q n, fs.lookup q = some n → fs'.lookup q = some n) := by
  constructor
  · intro c hc
    rcases (openAppend_ok_elim h).2.2 with ⟨c', _, rfl⟩ | ⟨hl, _⟩
    · rfl
    · rw [hc] at hl
      exact Option.noConfusion hl
  · intro q n hq
    exact openAppend_mono h hq

/-- Witness for C2 on a filesystem holding a nonempty file
`a/f.txt` with content `"hello"`. -/
theorem spec_C2_witness :
    FS.openAppend ⟨[(["a"], Node.dir), (["a", "f.txt"], Node.file "hello")]⟩
        ["a", "f.txt"] =
      .ok ⟨[(["a"], Node.dir), (["a", "f.txt"], Node.file "hello")]⟩ ∧
    ((∀ c, (⟨[(["a"], Node.dir), (["a", "f.txt"], Node.file "hello")]⟩ : FS).lookup
          ["a", "f.txt"] = some (.file c) →
        (⟨[(["a"], Node.dir), (["a", "f.txt"], Node.file "hello")]⟩ : FS) =
          ⟨[(["a"], Node.dir), (["a", "f.txt"], Node.file "hello")]⟩) ∧
      (∀ q n, (⟨[(["a"], Node.dir), (["a", "f.txt"], Node.file "hello")]⟩ : FS).lookup
          q = some n →
        (⟨[(["a"], Node.dir), (["a", "f.txt"], Node.file "hello")]⟩ : FS).lookup
          q = some n)) :=
  ⟨by rfl,
    spec_C2_openAppend_preserves _ ["a", "f.txt"] _ (by rfl)⟩

/-- C3: when a run completes without error it emits exactly one standard
output line `Created: <P>` per input path, in input order; and every
successful loop iteration appends exactly its own confirmation line,
unconditionally — also when the file at `P` already existed (the touch
succeeds and the line is still printed). -/
theorem spec_C3_output (L : List String) (st : RunState)
    (hsucc : (run st L).2 = none) :
    (run st L).1.out = st.out ++ L.map createdLine ∧
    (∀ (st2 : RunState) (p : String) (st2' : RunState), step st2 p = (st2', none) →
      st2'.out = st2.out ++ [createdLine p]) := by
  refine ⟨run_ok_out L st hsucc, ?_⟩
  intro st2 p st2' h
  obtain ⟨_, _, _, hout⟩ := step_ok_elim h
  exact hout

/-- Witness for C3: processing the same path twice still prints one
`Created:` line per occurrence (the second touch finds the file already
present). -/
theorem spec_C3_witness :
    (run initState ["a/b.txt", "a/b.txt"]).2 = none ∧
      (run initState ["a/b.txt", "a/b.txt"]).1.out =
        initState.out ++ ["a/b.txt", "a/b.txt"].map createdLine :=
  ⟨by decide, (spec_C3_output ["a/b.txt", "a/b.txt"] initState (by decide)).1⟩

/-- C4: running the scaffolding loop twice in succession on the same
(well-formed) path list produces the same final filesystem state as
running it once — the second run succeeds and leaves the filesystem
literally unchanged — and files created by the run are zero-byte
(no content is ever written: any file whose path was absent initially has
empty content afterwards). -/
theorem spec_C4_idempotent (L : List String) (st : RunState)
    (hv : ∀ P ∈ L, ValidPath P = true) (hsucc : (run st L).2 = none) :
    (run (run st L).1 L).2 = none ∧
    (run (run st L).1 L).1.fs = (run st L).1.fs ∧
    (∀ q c, st.fs.lookup q = none →
      (run st L).1.fs.lookup q = some (.file c) → c = "") := by
  have hfacts : ∀ P ∈ L, ValidPath P = true ∧
      (∃ c, (run st L).1.fs.lookup (strSegs P) = some (.file c)) ∧
      (∀ q, q ≠ [] → segsLe q (strSegs P) = true → q ≠ strSegs P →
        (run st L).1.fs.lookup q = some .dir) ∧
      strSegs (dirname P) ≠ [] := by
    intro P hP
    obtain ⟨⟨c, hc1, _, _⟩, hanc⟩ := run_materializes L st P hP (hv P hP) hsucc
    exact ⟨hv P hP, ⟨c, hc1⟩, hanc, run_ok_target_ne L st hsucc P hP⟩
  have hreplay : run (run st L).1 L =
      (⟨(run st L).1.fs, (run st L).1.out ++ L.map createdLine⟩, none) :=
    run_replay L (run st L).1.fs (run st L).1.out hfacts
  refine ⟨by rw [hreplay], by rw [hreplay], ?_⟩
  intro q c hq0 hqf
  have hcanon := run_ok_canon L st hv hsucc q
  rw [hqf] at hcanon
  simp only [canonLookup, hq0] at hcanon
  by_cases h1 : L.any (fun P => decide (strSegs P = q)) = true
  · rw [if_pos h1] at hcanon
    exact Node.file.inj (Option.some.inj hcanon)
  · rw [if_neg h1] at hcanon
    by_cases h2 : L.any (fun P =>
        decide (q ≠ []) && segsLe q (strSegs P) && decide (q ≠ strSegs P)) = true
    · rw [if_pos h2] at hcanon
      exact Node.noConfusion (Option.some.inj hcanon)
    · rw [if_neg h2] at hcanon
      exact Option.noConfusion hcanon

/-- Witness for C4 at the concrete list `["a/b.txt"]` on an empty working
directory. -/
theorem spec_C4_witness :
    (∀ P ∈ ["a/b.txt"], ValidPath P = true) ∧
      (run initState ["a/b.txt"]).2 = none ∧
      (run (run initState ["a/b.txt"]).1 ["a/b.txt"]).2 = none ∧
      (run (run initState ["a/b.txt"]).1 ["a/b.txt"]).1.fs =
        (run initState ["a/b.txt"]).1.fs := by
  have h := spec_C4_idempotent ["a/b.txt"] initState (by decide) (by decide)
  exact ⟨by decide, by decide, h.1, h.2.1⟩

/-- C5: if the loop body fails on a path, the run aborts immediately with
that error: the result is independent of every later path in the
sequence (no later path is processed), the filesystem keeps everything
already materialized (no rollback), and the output lines already printed
are not retracted.  In particular a path whose parent chain hits an
existing regular file makes the loop body fail at that path, leaving its
state unchanged. -/
theorem spec_C5_abort (st : RunState) (p : String) (rest : List String)
    (st1 : RunState) (e : OSErr) (h : step st p = (st1, some e)) :
    run st (p :: rest) = (st1, some e) ∧
    (∀ rest', run st (p :: rest') = (st1, some e)) ∧
    (∀ q n, st.fs.lookup q = some n → st1.fs.lookup q = some n) ∧
    st1.out = st.out ∧
    (∀ (st2 : RunState) (p2 : String) (c : String), ValidPath p2 = true →
      st2.fs.lookup (strSegs (dirname p2)) = some (.file c) →
      ∃ e2, (step st2 p2).2 = some e2 ∧ (step st2 p2).1 = st2) := by
  refine ⟨run_cons_err h, fun rest' => run_cons_err h, ?_, step_err_out h, ?_⟩
  · intro q n hq
    have := step_fs_mono st p hq
    rwa [h] at this
  · intro st2 p2 c hv hl
    exact step_fails_of_parent_file hv hl

/-- Witness for C5: a path without a separator fails (empty `dirname`),
later paths are not processed, and a parent that is a regular file makes
the step fail. -/
theorem spec_C5_witness :
    step initState "x.txt" = (initState, some OSErr.fileNotFound) ∧
      run initState ["x.txt", "a/b.txt"] = (initState, some OSErr.fileNotFound) ∧
      ValidPath "a/b.txt" = true ∧
      (⟨⟨[(["a"], Node.file "boo")]⟩, []⟩ : RunState).fs.lookup
        (strSegs (dirname "a/b.txt")) = some (.file "boo") ∧
      (∃ e2, (step ⟨⟨[(["a"], Node.file "boo")]⟩, []⟩ "a/b.txt").2 = some e2) := by
  have h := spec_C5_abort initState "x.txt" ["a/b.txt"] initState OSErr.fileNotFound
    (by decide)
  refine ⟨by decide, h.1, by decide, by decide, ?_⟩
  obtain ⟨e2, he2, _⟩ := h.2.2.2.2 ⟨⟨[(["a"], Node.file "boo")]⟩, []⟩ "a/b.txt" "boo"
    (by decide) (by decide)
  exact ⟨e2, he2⟩

/-- C6: permuting the input path list yields the same final filesystem
tree after a successful run as the original order (the two final
filesystems agree on every lookup), and the printed confirmation lines
follow the permuted order. -/
theorem spec_C6_perm (L L' : List String) (st : RunState) (hperm : L.Perm L')
    (hv : ∀ P ∈ L, ValidPath P = true)
    (h1 : (run st L).2 = none) (h2 : (run st L').2 = none) :
    (∀ q, (run st L').1.fs.lookup q = (run st L).1.fs.lookup q) ∧
    (run st L').1.out = st.out ++ L'.map createdLine := by
  have hv' : ∀ P ∈ L', ValidPath P = true := fun P hP => hv P (hperm.mem_iff.2 hP)
  refine ⟨?_, run_ok_out L' st h2⟩
  intro q
  rw [run_ok_canon L st hv h1 q, run_ok_canon L' st hv' h2 q]
  exact (canonLookup_perm hperm q).symm

/-- Witness for C6 on the two orders of `["a/b.txt", "a/c.txt"]`. -/
theorem spec_C6_witness :
    (["a/b.txt", "a/c.txt"] : List String).Perm ["a/c.txt", "a/b.txt"] ∧
      (run initState ["a/b.txt", "a/c.txt"]).2 = none ∧
      (run initState ["a/c.txt", "a/b.txt"]).2 = none ∧
      (run initState ["a/c.txt", "a/b.txt"]).1.fs.lookup ["a", "b.txt"] =
        (run initState ["a/b.txt", "a/c.txt"]).1.fs.lookup ["a", "b.txt"] := by
  have h := spec_C6_perm ["a/b.txt", "a/c.txt"] ["a/c.txt", "a/b.txt"] initState
    (by decide) (by decide) (by decide) (by decide)
  exact ⟨by decide, by decide, by decide, h.1 ["a", "b.txt"]⟩

/-- C7: each path is fully materialized — file touched and ancestor
directories present — in the very state in which its confirmation line
has just been appended, and the remaining paths are processed only from
that fully materialized state (strictly sequential per-path execution);
a failing loop body never prints its confirmation line. -/
theorem spec_C7_sequencing (st : RunState) (p : String) (st' : RunState)
    (hv : ValidPath p = true) (h : step st p = (st', none)) :
    (∃ c, st'.fs.lookup (strSegs p) = some (.file c)) ∧
    (∀ q, q ≠ [] → segsLe q (strSegs p) = true → q ≠ strSegs p →
      st'.fs.lookup q = some .dir) ∧
    st'.out = st.out ++ [createdLine p] ∧
    (∀ rest, run st (p :: rest) = run st' rest) ∧
    (∀ (st2 : RunState) (p2 : String) (st2' : RunState) (e : OSErr),
      step st2 p2 = (st2', some e) → st2'.out = st2.out) := by
  obtain ⟨⟨c, hc1, _, _⟩, hanc, hout⟩ := step_ok_facts hv h
  exact ⟨⟨c, hc1⟩, hanc, hout, fun rest => run_cons_ok h,
    fun _ _ _ _ h2 => step_err_out h2⟩

/-- Witness for C7 at the single step on `"a/b.txt"` from an empty
working directory. -/
theorem spec_C7_witness :
    ValidPath "a/b.txt" = true ∧
      step initState "a/b.txt" = ((step initState "a/b.txt").1, none) ∧
      (∃ c, (step initState "a/b.txt").1.fs.lookup (strSegs "a/b.txt") =
        some (.file c)) ∧
      (step initState "a/b.txt").1.out = initState.out ++ [createdLine "a/b.txt"] := by
  have h := spec_C7_sequencing initState "a/b.txt" (step initState "a/b.txt").1
    (by decide) (by decide)
  exact ⟨by decide, by decide, h.1, h.2.2.1⟩

set_option maxRecDepth 10000 in
/-- C8: on the input list `["a/b/c.txt", "a/d.txt"]` and an initially
empty working directory, the run succeeds, directories `a` and `a/b`
exist, files `a/b/c.txt` and `a/d.txt` exist with zero length, and
standard output is exactly `Created: a/b/c.txt` then `Created: a/d.txt`. -/
theorem spec_C8_scenario :
    (run initState ["a/b/c.txt", "a/d.txt"]).2 = none ∧
    (run initState ["a/b/c.txt", "a/d.txt"]).1.fs.lookup ["a"] = some .dir ∧
    (run initState ["a/b/c.txt", "a/d.txt"]).1.fs.lookup ["a", "b"] = some .dir ∧
    (run initState ["a/b/c.txt", "a/d.txt"]).1.fs.lookup ["a", "b", "c.txt"] =
      some (.file "") ∧
    (run initState ["a/b/c.txt", "a/d.txt"]).1.fs.lookup ["a", "d.txt"] =
      some (.file "") ∧
    (run initState ["a/b/c.txt", "a/d.txt"]).1.out =
      ["Created: a/b/c.txt", "Created: a/d.txt"] := by
  decide

set_option maxRecDepth 10000 in
/-- C9: every path in the compiled-in list contains a directory separator
(its `dirname` is nonempty), so `makedirs` never receives the empty
string during the program's run; and for any path without a parent
component, the directory-creation call receives the empty string and
raises `FileNotFoundError`, so the loop body fails with the state
unchanged and cannot materialize bare top-level filenames. -/
theorem spec_C9_separators :
    (∀ p ∈ paths, dirname p ≠ "") ∧
    (∀ (st : RunState) (s : String), dirname s = "" →
      step st s = (st, some OSErr.fileNotFound)) := by
  refine ⟨by decide, ?_⟩
  intro st s hd
  have hmk : FS.makedirs st.fs (strSegs (dirname s)) true = .error .fileNotFound := by
    rw [hd]
    rfl
  simp only [step, hmk]

/-- Witness for C9 at the separator-free path `"file.txt"`. -/
theorem spec_C9_witness :
    dirname "file.txt" = "" ∧
      step initState "file.txt" = (initState, some OSErr.fileNotFound) :=
  ⟨by decide, spec_C9_separators.2 initState "file.txt" (by decide)⟩

set_option maxRecDepth 10000 in
/-- C10: no path in the compiled-in list equals or is an ancestor prefix
of another (pairwise, neither segment list is a prefix of the other);
consequently the run from an empty working directory succeeds,
materializes all 12 paths as empty files, and prints exactly the 12
confirmation lines in order. -/
theorem spec_C10_paths_disjoint :
    List.Pairwise (fun a b => segsLe (strSegs a) (strSegs b) = false ∧
      segsLe (strSegs b) (strSegs a) = false) paths ∧
    paths.length = 12 ∧
    (run initState paths).2 = none ∧
    (run initState paths).1.out = paths.map createdLine ∧
    (run initState paths).1.out.length = 12 ∧
    (∀ P ∈ paths, (run initState paths).1.fs.lookup (strSegs P) =
      some (.file "")) := by
  decide

end CreateStructure
